import Mathlib

/-!
Shallow embedding of the krokodil game server (src/games.rs and the
connection-lifecycle part of src/main.rs).

Modelling conventions:
* `Uuid` is modelled as `Nat` (only equality of uuids is ever used).
* Rust `HashMap`/`HashSet` are modelled as association lists / lists with
  the operations the source actually performs (lookup of the first match,
  update of the sole matching entry, guarded insert).  A `HashMap` has at
  most one entry per key, which the list operations respect.
* Randomness (`rand_str`) is an oracle parameter: `rand : Nat → String`
  stands for "draw a fresh alphanumeric string of the given length", and
  the only fact used about it is that `rand len` has length `len`, which
  `rand_str` guarantees by construction (it samples exactly `len` chars).
* Rust methods mutating `&mut self` become functions returning the new
  value (paired with the Rust return value when there is one).
-/

namespace Krokodil

/-- Player identifier (Rust `Uuid`); only compared for equality. -/
abbrev Uuid := Nat

/-- `struct Player { id, nickname }` from games.rs. -/
structure Player where
  id : Uuid
  nickname : String
deriving DecidableEq

/-- `struct Point { x, y }` from games.rs (`i32` fields, never computed with). -/
structure Point where
  x : Int
  y : Int
deriving DecidableEq

/-- `struct DrawingSegment { id, stroke, line_width, points }` from games.rs. -/
structure DrawingSegment where
  id : String
  stroke : String
  line_width : Int
  points : List Point
deriving DecidableEq

/-- `struct CanvasSize { width, height }` from games.rs (`u32` fields). -/
structure CanvasSize where
  width : Nat
  height : Nat
deriving DecidableEq

/-- `struct Drawing { canvas, segments }` from games.rs. -/
structure Drawing where
  canvas : CanvasSize
  segments : List DrawingSegment
deriving DecidableEq

/-- `enum GameStage` from games.rs. -/
inductive GameStage where
  | playerChoosing (player_id : Uuid)
  | playerDrawing (player_id : Uuid) (word : String) (drawing : Drawing)
deriving DecidableEq

/-- `struct Turn { word, player_guessed }` from games.rs. -/
structure Turn where
  word : String
  player_guessed : Option Player
deriving DecidableEq

/-- `struct Game { id, stage, players, history }` from games.rs. -/
structure Game where
  id : String
  stage : GameStage
  players : List Player
  history : List Turn
deriving DecidableEq

/-- The custom `impl Clone for Drawing` from games.rs: keeps the canvas and
drops the segments. -/
def Drawing.clone (d : Drawing) : Drawing :=
  { canvas := d.canvas, segments := [] }

/-- The derived `Clone` for `GameStage`: clones the contained `Drawing`
via the custom `Drawing.clone`. -/
def GameStage.clone : GameStage → GameStage
  | .playerChoosing player_id => .playerChoosing player_id
  | .playerDrawing player_id word drawing => .playerDrawing player_id word drawing.clone

/-- The derived `Clone` for `Game` (fields cloned; only the stage clone is
non-trivial, through `Drawing.clone`). -/
def Game.clone (g : Game) : Game :=
  { g with stage := g.stage.clone }

/-- The player id referenced by the stage (the chooser while choosing,
the artist while drawing). -/
def GameStage.playerId : GameStage → Uuid
  | .playerChoosing player_id => player_id
  | .playerDrawing player_id _ _ => player_id

/-- The live segment log of a game: the drawing segments while in the
drawing stage, nothing otherwise. -/
def Game.liveSegments (g : Game) : List DrawingSegment :=
  match g.stage with
  | .playerDrawing _ _ drawing => drawing.segments
  | _ => []

/-- Rust `str::trim`: the string with whitespace removed from both ends.
Written on the character list so that it evaluates by kernel reduction. -/
def strTrim (s : String) : String :=
  ⟨((s.data.dropWhile Char.isWhitespace).reverse.dropWhile Char.isWhitespace).reverse⟩

/-- Rust `str::to_lowercase`, character-wise (the words of this game are
compared for equality only; the ASCII fragment of Unicode lowercasing). -/
def strToLower (s : String) : String :=
  ⟨s.data.map Char.toLower⟩

/-- `Game::new` from games.rs. -/
def Game.new (id : String) (player : Player) : Game :=
  { id := id
    stage := GameStage.playerChoosing player.id
    players := [player]
    history := [] }

/-- `Game::add_player` from games.rs: push the player unless a player with
the same id is already in the roster (`iter().find` by id). -/
def Game.add_player (g : Game) (player : Player) : Game :=
  if g.players.any (fun p => p.id == player.id) then g
  else { g with players := g.players ++ [player] }

/-- `Game::remove_player` from games.rs.  `position` followed by `remove`
deletes the first roster entry with the given id, i.e. `List.eraseP`; the
returned boolean is `pos.is_some()`, i.e. whether such an entry existed.
If the roster became empty the stage is left as is (the caller destroys the
game); otherwise, when the removed id was the stage's chooser/artist the
stage resets to choosing anchored on `players[0]`. -/
def Game.remove_player (g : Game) (remove_player_id : Uuid) : Game × Bool :=
  let present := g.players.any (fun p => p.id == remove_player_id)
  let players := g.players.eraseP (fun p => p.id == remove_player_id)
  match players with
  | [] => ({ g with players := [] }, present)
  | first :: rest =>
    let stage := match g.stage with
      | .playerChoosing player_id =>
        if player_id = remove_player_id then GameStage.playerChoosing first.id
        else GameStage.playerChoosing player_id
      | .playerDrawing player_id word drawing =>
        if player_id = remove_player_id then GameStage.playerChoosing first.id
        else GameStage.playerDrawing player_id word drawing
    ({ g with players := first :: rest, stage := stage }, present)

/-- `Game::add_segment` from games.rs: append only while drawing. -/
def Game.add_segment (g : Game) (segment : DrawingSegment) : Game :=
  match g.stage with
  | .playerDrawing player_id word drawing =>
    { g with stage := (.playerDrawing player_id word
        { drawing with segments := drawing.segments ++ [segment] }) }
  | _ => g

/-- `Game::remove_segment` from games.rs: `retain` keeps the segments whose
id differs, only while drawing. -/
def Game.remove_segment (g : Game) (segment_id : String) : Game :=
  match g.stage with
  | .playerDrawing player_id word drawing =>
    { g with stage := (.playerDrawing player_id word
        { drawing with segments := drawing.segments.filter (fun s => s.id ≠ segment_id) }) }
  | _ => g

/-- `Game::submit_word` from games.rs: succeeds exactly when the stage is
`PlayerChoosing` with the submitting player as chooser; then moves to
`PlayerDrawing` with the trimmed word, the given canvas and no segments. -/
def Game.submit_word (g : Game) (submitting_player_id : Uuid) (word : String)
    (canvas : CanvasSize) : Game × Bool :=
  match g.stage with
  | .playerChoosing player_id =>
    if submitting_player_id = player_id then
      ({ g with stage := (.playerDrawing player_id (strTrim word)
           { canvas := canvas, segments := [] }) }, true)
    else (g, false)
  | _ => (g, false)

/-- `Game::guess_word` from games.rs: succeeds exactly when the stage is
`PlayerDrawing` and the guess equals the word case-insensitively; then the
stage becomes `PlayerChoosing` anchored on the guesser. -/
def Game.guess_word (g : Game) (guessing_player_id : Uuid) (guess : String) : Game × Bool :=
  match g.stage with
  | .playerDrawing _ word _ =>
    if strToLower word = strToLower guess then
      ({ g with stage := .playerChoosing guessing_player_id }, true)
    else (g, false)
  | _ => (g, false)

/-- `struct Games { pending_ids, rooms }` from games.rs.  The `HashSet` of
pending ids and the `HashMap` of rooms are modelled as lists; rooms hold at
most one entry per id (every insertion is guarded by a lookup). -/
structure Games where
  pending_ids : List String
  rooms : List (String × Game)
deriving DecidableEq

/-- `Games::new` from games.rs. -/
def Games.new : Games :=
  { pending_ids := [], rooms := [] }

/-- `Games::exists` from games.rs: a pending id or a live room id. -/
def Games.existsId (gs : Games) (game_id : String) : Bool :=
  gs.pending_ids.contains game_id || (gs.rooms.lookup game_id).isSome

/-- Update the (sole) room entry with the given id, leaving the rest of the
map unchanged; identity when the id is absent.  This is what mutating
through `HashMap::get_mut` / `Entry::and_modify` does. -/
def updateRoom (rooms : List (String × Game)) (game_id : String) (f : Game → Game) :
    List (String × Game) :=
  match rooms with
  | [] => []
  | (id, g) :: rest =>
    if id = game_id then (id, f g) :: rest
    else (id, g) :: updateRoom rest game_id f

/-- `Games::add_player` from games.rs: `entry().and_modify().or_insert_with()`.
The freshly sampled nickname of `Games::new_player` (`rand_str(3)`) is
passed in as `nick`.  Returns the new registry, the resulting room and the
player value that was offered to it. -/
def Games.add_player (gs : Games) (game_id : String) (player_id : Uuid)
    (nick : String) : Games × Game × Player :=
  let player : Player := { id := player_id, nickname := nick }
  match gs.rooms.lookup game_id with
  | some g =>
    ({ gs with rooms := updateRoom gs.rooms game_id (fun g0 => g0.add_player player) },
     g.add_player player, player)
  | none =>
    let g := Game.new game_id player
    ({ gs with rooms := gs.rooms ++ [(game_id, g)] }, g, player)

/-- The room-by-room body of `Games::remove_player` from games.rs: remove
the player from every room; a room left empty is dropped (the
`empty_games` pass), a surviving room that was modified contributes its
`clone()` to the returned list. -/
def removeFromRooms (player_id : Uuid) :
    List (String × Game) → List (String × Game) × List Game
  | [] => ([], [])
  | (id, g) :: rest =>
    let gm := g.remove_player player_id
    let tail := removeFromRooms player_id rest
    if gm.1.players.isEmpty then tail
    else if gm.2 then ((id, gm.1) :: tail.1, gm.1.clone :: tail.2)
    else ((id, gm.1) :: tail.1, tail.2)

/-- `Games::remove_player` from games.rs. -/
def Games.remove_player (gs : Games) (player_id : Uuid) : Games × List Game :=
  let res := removeFromRooms player_id gs.rooms
  ({ gs with rooms := res.1 }, res.2)

/-- Longest id currently known to the registry (pending or live).  Used to
bound the retry loop of `reserve_id`: a candidate longer than every known
id cannot collide. -/
def Games.maxIdLen (gs : Games) : Nat :=
  (gs.pending_ids.map String.length ++ gs.rooms.map (fun r => r.1.length)).foldr max 0

/-- The retry loop of `Games::reserve_id` from games.rs: draw `rand len`;
on collision retry with `len + 1`.  The loop in the source is unbounded but
terminates because `rand_str len` has length `len` and only finitely many
ids exist; `fuel` is any bound on the number of iterations still possible
(`maxIdLen + 1` suffices from the starting length). -/
def Games.reserveIdLoop (gs : Games) (rand : Nat → String) : Nat → Nat → String
  | 0, len => rand len
  | fuel + 1, len =>
    if gs.existsId (rand len) then gs.reserveIdLoop rand fuel (len + 1)
    else rand len

/-- `Games::reserve_id` from games.rs: run the retry loop starting at
length 6, then insert the chosen id into the pending set. -/
def Games.reserve_id (gs : Games) (rand : Nat → String) : String × Games :=
  let id := gs.reserveIdLoop rand (gs.maxIdLen + 1) 6
  (id, { gs with pending_ids :=
      if gs.pending_ids.contains id then gs.pending_ids else id :: gs.pending_ids })

/-!
Connection lifecycle (src/main.rs).  `AppState` keeps the connection
directory (player id ↦ instance id of the most recent connection; the
outbound channel is I/O and is not part of the state the claims are about)
and the exit tracker (player id ↦ time the connection ended, `Instant`
modelled as `Nat`).
-/

/-- The parts of `struct AppState` from main.rs that `disconnected` reads
and writes. -/
structure AppState where
  connections : List (Uuid × Nat)
  exited_players : List (Uuid × Nat)
deriving DecidableEq

/-- `PlayerConnLifecycle::disconnected` from main.rs: remove the directory
entry only when its instance id equals the disconnecting connection's own
id; then insert `exited_players[player_id] = now` (the insert sits outside
the instance-id guard in the source). -/
def AppState.disconnected (st : AppState) (player_id : Uuid) (conn_id : Nat)
    (now : Nat) : AppState :=
  let connections := match st.connections.lookup player_id with
    | some cid =>
      if cid = conn_id then st.connections.filter (fun e => e.1 ≠ player_id)
      else st.connections
    | none => st.connections
  { connections := connections
    exited_players := (player_id, now) :: st.exited_players.filter (fun e => e.1 ≠ player_id) }

/-!
Session operations as a trace language, for the reachability invariant.
`creation` is the initial one-player game; the per-room operations go
through the room lookup the way the handlers in main.rs reach a game via
`find_mut` (an absent room makes the operation a no-op).
-/

/-- One session operation, as issued by the handlers. -/
inductive Op where
  | addPlayer (game_id : String) (player_id : Uuid) (nick : String)
  | removePlayer (player_id : Uuid)
  | submitWord (game_id : String) (player_id : Uuid) (word : String) (canvas : CanvasSize)
  | guessWord (game_id : String) (player_id : Uuid) (guess : String)
  | addSegment (game_id : String) (segment : DrawingSegment)
  | removeSegment (game_id : String) (segment_id : String)

/-- Apply one operation to the registry. -/
def Games.applyOp (gs : Games) : Op → Games
  | .addPlayer game_id player_id nick => (gs.add_player game_id player_id nick).1
  | .removePlayer player_id => (gs.remove_player player_id).1
  | .submitWord game_id player_id word canvas =>
    { gs with rooms := (updateRoom gs.rooms game_id
        (fun g => (g.submit_word player_id word canvas).1)) }
  | .guessWord game_id player_id guess =>
    { gs with rooms := (updateRoom gs.rooms game_id
        (fun g => (g.guess_word player_id guess).1)) }
  | .addSegment game_id segment =>
    { gs with rooms := updateRoom gs.rooms game_id (fun g => g.add_segment segment) }
  | .removeSegment game_id segment_id =>
    { gs with rooms := updateRoom gs.rooms game_id (fun g => g.remove_segment segment_id) }

/-- Apply a sequence of operations. -/
def Games.applyOps (gs : Games) (ops : List Op) : Games :=
  ops.foldl Games.applyOp gs

/-- A fresh registry holding one newly created one-player game. -/
def freshGames (game_id : String) (player_id : Uuid) (nick : String) : Games :=
  { pending_ids := [], rooms := [(game_id, Game.new game_id { id := player_id, nickname := nick })] }

/-- The stage of a game references a current roster member. -/
def Game.stageOk (g : Game) : Bool :=
  g.players.any (fun p => p.id == g.stage.playerId)

/-- Every room of the registry satisfies `Game.stageOk`. -/
def Games.stagesOk (gs : Games) : Bool :=
  gs.rooms.all (fun r => r.2.stageOk)

/-- Guard on a single operation: a `guessWord` must come from a player who
is currently in the targeted room's roster; every other operation is
unrestricted. -/
def Games.legalOp (gs : Games) : Op → Bool
  | .guessWord game_id player_id _ =>
    match gs.rooms.lookup game_id with
    | some g => g.players.any (fun p => p.id == player_id)
    | none => true
  | _ => true

/-- Guard on a whole trace, checked state by state. -/
def Games.legalOps (gs : Games) : List Op → Bool
  | [] => true
  | op :: rest => gs.legalOp op && (gs.applyOp op).legalOps rest

/-- A sequence of joins (player id, sampled nickname) to one room, as
issued by the connection handler. -/
def Games.addPlayers (gs : Games) (game_id : String) (joins : List (Uuid × String)) : Games :=
  joins.foldl (fun s j => (s.add_player game_id j.1 j.2).1) gs

/-!
Sample values used by witnesses and concrete scenarios.
-/

/-- A two-player room `[A, B]` where player 0 (A) is choosing a word. -/
def gChoosing : Game :=
  { id := "r"
    stage := GameStage.playerChoosing 0
    players := [{ id := 0, nickname := "A" }, { id := 1, nickname := "B" }]
    history := [] }

/-- A registry holding one reserved-but-roomless id. -/
def gsPending : Games :=
  { pending_ids := ["abcdef"], rooms := [] }

/-- Directory where player 7 is currently registered with connection
instance 2 (a connection newer than instance 1). -/
def stSuperseded : AppState :=
  { connections := [(7, 2)], exited_players := [] }

/-- A registry with three rooms: room "a" holds only player 7, room "b"
has 7 drawing with 8 guessing (one live segment), room "c" does not
contain 7. -/
def gsThree : Games :=
  { pending_ids := []
    rooms := [
      ("a", { id := "a"
              stage := GameStage.playerChoosing 7
              players := [{ id := 7, nickname := "G" }]
              history := [] }),
      ("b", { id := "b"
              stage := (GameStage.playerDrawing 7 "Apple"
                { canvas := { width := 800, height := 600 }
                  segments := [{ id := "s1", stroke := "red", line_width := 2, points := [] }] })
              players := [{ id := 7, nickname := "G" }, { id := 8, nickname := "H" }]
              history := [] }),
      ("c", { id := "c"
              stage := GameStage.playerChoosing 9
              players := [{ id := 9, nickname := "I" }]
              history := [] })] }

/-- A deterministic stand-in for `rand_str`: `n` copies of the letter a.
It has the one property `rand_str` guarantees: the result has the
requested length. -/
def randA : Nat → String :=
  fun n => ⟨List.replicate n (Char.ofNat 97)⟩

/-!
General list lemmas about the association-list operations.
-/

theorem lookup_eq_none_of_not_mem {β : Type} {l : List (String × β)} {a : String}
    (h : a ∉ l.map Prod.fst) : l.lookup a = none := by
  induction l with
  | nil => rfl
  | cons e tl ih =>
    simp only [List.map_cons, List.mem_cons] at h
    push_neg at h
    obtain ⟨id, b⟩ := e
    rw [List.lookup_cons, beq_false_of_ne h.1]
    exact ih h.2

theorem lookup_some_mem {β : Type} {l : List (String × β)} {a : String} {b : β}
    (h : l.lookup a = some b) : (a, b) ∈ l := by
  induction l with
  | nil => cases h
  | cons e tl ih =>
    obtain ⟨id, v⟩ := e
    by_cases he : a = id
    · subst he
      rw [List.lookup_cons, beq_self_eq_true] at h
      simp only [Option.some.injEq] at h
      subst h
      exact List.mem_cons_self _ _
    · rw [List.lookup_cons, beq_false_of_ne he] at h
      exact List.mem_cons_of_mem _ (ih h)

theorem lookup_append_left {β : Type} {l1 l2 : List (String × β)} {a : String}
    (h : l1.lookup a = none) : (l1 ++ l2).lookup a = l2.lookup a := by
  induction l1 with
  | nil => rfl
  | cons e tl ih =>
    obtain ⟨id, v⟩ := e
    by_cases he : a = id
    · subst he
      rw [List.lookup_cons, beq_self_eq_true] at h
      cases h
    · rw [List.cons_append, List.lookup_cons, beq_false_of_ne he]
      rw [List.lookup_cons, beq_false_of_ne he] at h
      exact ih h

theorem lookup_updateRoom_self (rooms : List (String × Game)) (game_id : String)
    (f : Game → Game) :
    (updateRoom rooms game_id f).lookup game_id = (rooms.lookup game_id).map f := by
  induction rooms with
  | nil => rfl
  | cons e tl ih =>
    obtain ⟨id, g⟩ := e
    by_cases he : id = game_id
    · subst he
      simp [updateRoom, List.lookup]
    · simp [updateRoom, he, List.lookup, beq_false_of_ne (Ne.symm he)]
      exact ih

theorem lookup_updateRoom_of_ne {rooms : List (String × Game)} {game_id other : String}
    (f : Game → Game) (h : other ≠ game_id) :
    (updateRoom rooms game_id f).lookup other = rooms.lookup other := by
  induction rooms with
  | nil => rfl
  | cons e tl ih =>
    obtain ⟨id, g⟩ := e
    by_cases he : id = game_id
    · subst he
      simp [updateRoom, List.lookup, beq_false_of_ne h]
    · simp only [updateRoom, if_neg he]
      by_cases ho : other = id
      · subst ho; simp [List.lookup]
      · simp [List.lookup, beq_false_of_ne ho]
        exact ih

theorem updateRoom_eq_self {rooms : List (String × Game)} {game_id : String} {g : Game}
    (f : Game → Game) (hl : rooms.lookup game_id = some g) (hf : f g = g) :
    updateRoom rooms game_id f = rooms := by
  induction rooms with
  | nil => cases hl
  | cons e tl ih =>
    obtain ⟨id, g0⟩ := e
    by_cases he : id = game_id
    · subst he
      simp [List.lookup] at hl
      subst hl
      simp [updateRoom, hf]
    · simp [List.lookup, beq_false_of_ne (Ne.symm he)] at hl
      simp [updateRoom, he, ih hl]

/-!
Properties of `Game.add_player`.
-/

theorem add_player_of_not_mem {g : Game} {player : Player}
    (h : ∀ p ∈ g.players, p.id ≠ player.id) :
    g.add_player player = { g with players := g.players ++ [player] } := by
  have : g.players.any (fun p => p.id == player.id) = false := by
    simp only [List.any_eq_false, beq_iff_eq]
    exact h
  simp [Game.add_player, this]

theorem add_player_of_mem {g : Game} {player : Player}
    (h : ∃ p ∈ g.players, p.id = player.id) :
    g.add_player player = g := by
  have : g.players.any (fun p => p.id == player.id) = true := by
    simp only [List.any_eq_true, beq_iff_eq]
    exact h
  simp [Game.add_player, this]

/-- Folding distinct fresh joins onto an existing room appends the
corresponding players in order. -/
theorem addPlayers_append (game_id : String) (joins : List (Uuid × String)) :
    ∀ (gs : Games) (g : Game), gs.rooms.lookup game_id = some g →
    (joins.map Prod.fst).Nodup →
    (∀ j ∈ joins, ∀ p ∈ g.players, p.id ≠ j.1) →
    ∃ g2, (gs.addPlayers game_id joins).rooms.lookup game_id = some g2 ∧
      g2.players = g.players ++ joins.map (fun j => { id := j.1, nickname := j.2 : Player }) := by
  induction joins with
  | nil =>
    intro gs g hl _ _
    exact ⟨g, hl, by simp⟩
  | cons j rest ih =>
    intro gs g hl hnodup hfresh
    simp only [List.map_cons, List.nodup_cons] at hnodup
    have hstep : (gs.add_player game_id j.1 j.2).1.rooms.lookup game_id =
        some { g with players := g.players ++ [{ id := j.1, nickname := j.2 }] } := by
      simp only [Games.add_player, hl]
      rw [lookup_updateRoom_self, hl]
      exact congrArg some (add_player_of_not_mem
        (fun p hp => hfresh j (List.mem_cons_self _ _) p hp))
    have hfresh2 : ∀ j2 ∈ rest,
        ∀ p ∈ g.players ++ [{ id := j.1, nickname := j.2 : Player }], p.id ≠ j2.1 := by
      intro j2 hj2 p hp
      simp only [List.mem_append, List.mem_singleton] at hp
      rcases hp with hp | hp
      · exact hfresh j2 (List.mem_cons_of_mem _ hj2) p hp
      · subst hp
        intro hcontra
        have : j.1 = j2.1 := hcontra
        exact hnodup.1 (this ▸ List.mem_map_of_mem Prod.fst hj2)
    obtain ⟨g2, hg2, hplayers⟩ := ih (gs.add_player game_id j.1 j.2).1
      { g with players := g.players ++ [{ id := j.1, nickname := j.2 }] } hstep hnodup.2 hfresh2
    refine ⟨g2, hg2, ?_⟩
    rw [hplayers]
    simp

/-- C8: joining a fresh room with distinct identities builds a roster of
exactly those identities in join order; re-joining an identity already in
the roster leaves the whole registry unchanged. -/
theorem add_player_roster_spec (gs1 gs2 : Games) (gid1 gid2 : String)
    (joins : List (Uuid × String)) (player_id : Uuid) (nick : String) (g : Game) :
    (gs1.rooms.lookup gid1 = none → (joins.map Prod.fst).Nodup → joins ≠ [] →
      ∃ g2, (gs1.addPlayers gid1 joins).rooms.lookup gid1 = some g2 ∧
        g2.players.map Player.id = joins.map Prod.fst ∧
        g2.players.length = joins.length)
    ∧ (gs2.rooms.lookup gid2 = some g → (∃ p ∈ g.players, p.id = player_id) →
      (gs2.add_player gid2 player_id nick).1 = gs2) := by
  constructor
  · intro hnone hnodup hne
    match joins, hne with
    | j :: rest, _ =>
      simp only [List.map_cons, List.nodup_cons] at hnodup
      have hstep : (gs1.add_player gid1 j.1 j.2).1.rooms.lookup gid1 =
          some (Game.new gid1 { id := j.1, nickname := j.2 }) := by
        simp only [Games.add_player, hnone]
        rw [lookup_append_left hnone]
        simp [List.lookup]
      have hfresh2 : ∀ j2 ∈ rest,
          ∀ p ∈ (Game.new gid1 { id := j.1, nickname := j.2 : Player }).players, p.id ≠ j2.1 := by
        intro j2 hj2 p hp
        simp only [Game.new, List.mem_singleton] at hp
        subst hp
        intro hcontra
        have : j.1 = j2.1 := hcontra
        exact hnodup.1 (this ▸ List.mem_map_of_mem Prod.fst hj2)
      obtain ⟨g2, hg2, hplayers⟩ := addPlayers_append gid1 rest
        (gs1.add_player gid1 j.1 j.2).1 (Game.new gid1 { id := j.1, nickname := j.2 })
        hstep hnodup.2 hfresh2
      refine ⟨g2, ?_, ?_, ?_⟩
      · simpa [Games.addPlayers] using hg2
      · rw [hplayers]
        simp [Game.new]
      · rw [hplayers]
        simp [Game.new]
  · intro hsome hmem
    have : (fun g0 => g0.add_player { id := player_id, nickname := nick }) g = g :=
      add_player_of_mem hmem
    simp only [Games.add_player, hsome]
    rw [updateRoom_eq_self _ hsome this]

/-- C8 witness: two distinct joins on a fresh room give roster `[4, 9]` in
join order, and re-joining the sole member of an existing one-player room
leaves the registry unchanged. -/
theorem add_player_roster_spec_witness :
    (∃ g2, ((Games.new).addPlayers "room" [(4, "aa"), (9, "bb")]).rooms.lookup "room" = some g2 ∧
      g2.players.map Player.id = [4, 9] ∧ g2.players.length = 2)
    ∧ ((freshGames "g" 5 "nn").add_player "g" 5 "zz").1 = freshGames "g" 5 "nn" := by
  have h := add_player_roster_spec Games.new (freshGames "g" 5 "nn") "room" "g"
    [(4, "aa"), (9, "bb")] 5 "zz" (Game.new "g" { id := 5, nickname := "nn" })
  exact ⟨h.1 rfl (by decide) (by decide), h.2 rfl ⟨{ id := 5, nickname := "nn" }, by decide, rfl⟩⟩

/-- C1: `submit_word(by, word, canvas)` returns true iff the stage is
Choosing and `by` is the chooser; on success the stage becomes Drawing with
artist `by`, the trimmed word, the given canvas and an empty segment log;
on failure the whole game is unchanged. -/
theorem submit_word_spec (g : Game) (caller : Uuid) (word : String) (canvas : CanvasSize) :
    ((g.submit_word caller word canvas).2 = true ↔ g.stage = GameStage.playerChoosing caller)
    ∧ ((g.submit_word caller word canvas).2 = true →
        (g.submit_word caller word canvas).1 =
          { g with stage := (GameStage.playerDrawing caller (strTrim word)
              { canvas := canvas, segments := [] }) })
    ∧ ((g.submit_word caller word canvas).2 = false → (g.submit_word caller word canvas).1 = g) := by
  cases h : g.stage with
  | playerChoosing player_id =>
    by_cases hc : caller = player_id
    · subst hc
      simp [Game.submit_word, h]
    · simp [Game.submit_word, h, hc]
      intro he
      exact absurd he.symm hc
  | playerDrawing player_id word drawing =>
    simp [Game.submit_word, h]

/-- C1 witness: in the sample room, the chooser's submission succeeds with
the trimmed word stored, and a non-chooser's submission leaves the game
unchanged. -/
theorem submit_word_spec_witness :
    (gChoosing.submit_word 0 " apple " ⟨800, 600⟩).1 =
      { gChoosing with stage := (GameStage.playerDrawing 0 (strTrim " apple ")
          { canvas := ⟨800, 600⟩, segments := [] }) }
    ∧ (gChoosing.submit_word 1 "pear" ⟨800, 600⟩).1 = gChoosing :=
  ⟨(submit_word_spec gChoosing 0 " apple " ⟨800, 600⟩).2.1 (by decide),
   (submit_word_spec gChoosing 1 "pear" ⟨800, 600⟩).2.2 (by decide)⟩

/-- C2: `guess_word(by, guess)` returns true iff the stage is Drawing and
the guess equals the secret word case-insensitively; on success the stage
becomes Choosing with chooser `by`; on failure the game is unchanged. -/
theorem guess_word_spec (g : Game) (caller : Uuid) (guess : String) :
    ((g.guess_word caller guess).2 = true ↔
      ∃ artist word drawing, g.stage = GameStage.playerDrawing artist word drawing ∧
        strToLower word = strToLower guess)
    ∧ ((g.guess_word caller guess).2 = true →
        (g.guess_word caller guess).1 = { g with stage := GameStage.playerChoosing caller })
    ∧ ((g.guess_word caller guess).2 = false → (g.guess_word caller guess).1 = g) := by
  cases h : g.stage with
  | playerChoosing player_id =>
    refine ⟨⟨fun ht => ?_, fun ⟨a, w, d, ha, _⟩ => ?_⟩, fun ht => ?_, fun _ => ?_⟩
    · simp [Game.guess_word, h] at ht
    · cases ha
    · simp [Game.guess_word, h] at ht
    · simp [Game.guess_word, h]
  | playerDrawing player_id word drawing =>
    by_cases hw : strToLower word = strToLower guess
    · refine ⟨⟨fun _ => ⟨player_id, word, drawing, rfl, hw⟩, fun _ => ?_⟩, fun _ => ?_, fun hf => ?_⟩
      · simp [Game.guess_word, h, hw]
      · simp [Game.guess_word, h, hw]
      · simp [Game.guess_word, h, hw] at hf
    · refine ⟨⟨fun ht => ?_, fun ⟨a, w, d, ha, hlow⟩ => ?_⟩, fun ht => ?_, fun _ => ?_⟩
      · simp [Game.guess_word, h, hw] at ht
      · cases ha; exact absurd hlow hw
      · simp [Game.guess_word, h, hw] at ht
      · simp [Game.guess_word, h, hw]

/-- C2 witness: a case-insensitive match on the secret word succeeds and
anchors Choosing on the guesser; a wrong guess changes nothing. -/
theorem guess_word_spec_witness :
    ((gChoosing.submit_word 0 "Apple" ⟨800, 600⟩).1.guess_word 1 "aPPle").1 =
      { (gChoosing.submit_word 0 "Apple" ⟨800, 600⟩).1 with
          stage := GameStage.playerChoosing 1 }
    ∧ ((gChoosing.submit_word 0 "Apple" ⟨800, 600⟩).1.guess_word 1 "pear").1 =
      (gChoosing.submit_word 0 "Apple" ⟨800, 600⟩).1 :=
  ⟨(guess_word_spec (gChoosing.submit_word 0 "Apple" ⟨800, 600⟩).1 1 "aPPle").2.1 (by decide),
   (guess_word_spec (gChoosing.submit_word 0 "Apple" ⟨800, 600⟩).1 1 "pear").2.2 (by decide)⟩

/-- C4 counterexample: after the first join on a reserved id the id is
still in the pending set — `Games::add_player` does not clear the pending
flag. -/
theorem add_player_pending_cex :
    ((gsPending.add_player "abcdef" 0 "xyz").1.pending_ids = ["abcdef"])
    ∧ gsPending.pending_ids = ["abcdef"] := by
  constructor <;> rfl

/-- C4 amended: `Games::add_player` leaves the pending set exactly as it
was; a reserved id stays marked pending after the first join (`exists`
keeps answering true through the room map, not by clearing the flag). -/
theorem add_player_pending_unchanged (gs : Games) (game_id : String) (player_id : Uuid)
    (nick : String) :
    ((gs.add_player game_id player_id nick).1).pending_ids = gs.pending_ids := by
  cases h : gs.rooms.lookup game_id <;> simp [Games.add_player, h]

/-- C5: when a newer connection (instance 2) has superseded the
disconnecting one (instance 1), `disconnected` does keep the directory
entry, but it still records an exit time for the identity — the
`exited_players` insert sits outside the instance-id guard. -/
theorem disconnected_superseded_still_records_exit :
    (stSuperseded.disconnected 7 1 5).connections = [(7, 2)]
    ∧ (stSuperseded.disconnected 7 1 5).exited_players.lookup 7 = some 5 := by
  constructor <;> rfl

/-- C7 counterexample: the code stores the trimmed word with its original
case, so after A submits "Apple" the secret word is "Apple", not "apple"
as the claimed scenario states. -/
theorem scenario_word_case_cex :
    (gChoosing.submit_word 0 "Apple" ⟨800, 600⟩).1.stage =
      GameStage.playerDrawing 0 "Apple" { canvas := ⟨800, 600⟩, segments := [] }
    ∧ (gChoosing.submit_word 0 "Apple" ⟨800, 600⟩).1.stage ≠
      GameStage.playerDrawing 0 "apple" { canvas := ⟨800, 600⟩, segments := [] } := by
  constructor
  · rfl
  · decide

/-- C7 amended: in the room `[A, B]` with A choosing, A's
`submit_word("Apple", 800×600)` succeeds and yields Drawing with artist A,
secret word "Apple" (trimmed input, original case), the 800×600 canvas and
no segments; then B's `guess_word("apple")` succeeds case-insensitively
and yields Choosing anchored on B. -/
theorem scenario_apple :
    (gChoosing.submit_word 0 "Apple" ⟨800, 600⟩).2 = true
    ∧ (gChoosing.submit_word 0 "Apple" ⟨800, 600⟩).1.stage =
        GameStage.playerDrawing 0 "Apple" { canvas := ⟨800, 600⟩, segments := [] }
    ∧ (gChoosing.submit_word 0 "Apple" ⟨800, 600⟩).1.players = gChoosing.players
    ∧ ((gChoosing.submit_word 0 "Apple" ⟨800, 600⟩).1.guess_word 1 "apple").2 = true
    ∧ ((gChoosing.submit_word 0 "Apple" ⟨800, 600⟩).1.guess_word 1 "apple").1.stage =
        GameStage.playerChoosing 1 := by
  refine ⟨rfl, rfl, rfl, ?_, rfl⟩
  decide

/-!
C9: `reserve_id` freshness.
-/

theorem le_foldr_max {l : List Nat} {x : Nat} (h : x ∈ l) : x ≤ l.foldr max 0 := by
  induction l with
  | nil => cases h
  | cons a tl ih =>
    rcases List.mem_cons.mp h with rfl | h2
    · exact Nat.le_max_left _ _
    · exact Nat.le_trans (ih h2) (Nat.le_max_right _ _)

/-- Any id known to the registry (pending or live) is at most `maxIdLen`
long. -/
theorem existsId_length_le {gs : Games} {s : String} (h : gs.existsId s = true) :
    s.length ≤ gs.maxIdLen := by
  simp only [Games.existsId, Bool.or_eq_true, Option.isSome_iff_exists] at h
  rcases h with h | ⟨g, h⟩
  · have hmem : s ∈ gs.pending_ids := by simpa using h
    exact le_foldr_max (List.mem_append_left _ (List.mem_map_of_mem String.length hmem))
  · have hmem : (s, g) ∈ gs.rooms := lookup_some_mem h
    have : s.length ∈ gs.rooms.map (fun r => r.1.length) :=
      List.mem_map.mpr ⟨(s, g), hmem, rfl⟩
    exact le_foldr_max (List.mem_append_right _ this)

/-- The retry loop returns an id that does not collide with any pending or
live id, as soon as the candidate lengths can outgrow every known id. -/
theorem reserveIdLoop_fresh (gs : Games) (rand : Nat → String)
    (hlen : ∀ n, (rand n).length = n) :
    ∀ fuel len, gs.maxIdLen < len + fuel →
      gs.existsId (gs.reserveIdLoop rand fuel len) = false := by
  intro fuel
  induction fuel with
  | zero =>
    intro len hbound
    simp only [Games.reserveIdLoop]
    cases hx : gs.existsId (rand len) with
    | false => rfl
    | true =>
      have := existsId_length_le hx
      rw [hlen] at this
      omega
  | succ fuel ih =>
    intro len hbound
    simp only [Games.reserveIdLoop]
    cases hx : gs.existsId (rand len) with
    | false => simpa using hx
    | true =>
      simp only [if_pos rfl]
      exact ih (len + 1) (by omega)

/-- C9: given only that `rand_str len` returns a string of length `len`,
`reserve_id` returns an id that is neither pending nor owned by a live
game at the time of the call, and that id is in the pending set of the
resulting registry. -/
theorem reserve_id_fresh (gs : Games) (rand : Nat → String)
    (hlen : ∀ n, (rand n).length = n) :
    gs.existsId (gs.reserve_id rand).1 = false
    ∧ (gs.reserve_id rand).2.pending_ids.contains (gs.reserve_id rand).1 = true := by
  have hfresh : gs.existsId (gs.reserveIdLoop rand (gs.maxIdLen + 1) 6) = false :=
    reserveIdLoop_fresh gs rand hlen (gs.maxIdLen + 1) 6 (by omega)
  have hnotpending : gs.pending_ids.contains (gs.reserveIdLoop rand (gs.maxIdLen + 1) 6) = false := by
    simp only [Games.existsId, Bool.or_eq_false_iff] at hfresh
    exact hfresh.1
  refine ⟨hfresh, ?_⟩
  simp only [Games.reserve_id, hnotpending, Bool.false_eq_true, if_false]
  simp [List.contains_cons]

/-- C9 witness: with the deterministic generator and a registry already
holding the pending id "abcdef", the reserved id collides with nothing and
lands in the pending set. -/
theorem reserve_id_fresh_witness :
    gsPending.existsId (gsPending.reserve_id randA).1 = false
    ∧ (gsPending.reserve_id randA).2.pending_ids.contains (gsPending.reserve_id randA).1 = true :=
  reserve_id_fresh gsPending randA
    (fun n => by simp [randA, String.length])

/-!
C10: snapshots carry no drawing segments.
-/

/-- A clone never has live segments, whatever the stage. -/
theorem clone_liveSegments (g : Game) : g.clone.liveSegments = [] := by
  cases h : g.stage <;>
    simp [Game.clone, Game.liveSegments, GameStage.clone, Drawing.clone, h]

/-- Every game in the modified list of `removeFromRooms` is a clone. -/
theorem removeFromRooms_mods_are_clones (player_id : Uuid) :
    ∀ rooms : List (String × Game), ∀ m ∈ (removeFromRooms player_id rooms).2,
      ∃ g : Game, m = g.clone := by
  intro rooms
  induction rooms with
  | nil => intro m hm; cases hm
  | cons e tl ih =>
    intro m hm
    simp only [removeFromRooms] at hm
    split at hm
    · exact ih m hm
    · split at hm
      · rcases List.mem_cons.mp hm with rfl | hm2
        · exact ⟨(e.2.remove_player player_id).1, rfl⟩
        · exact ih m hm2
      · exact ih m hm

/-- C10: cloning a game in Drawing stage keeps the id, roster, history,
stage discriminant, artist, word and canvas but empties the segment list;
hence every snapshot returned by `Games::remove_player` has no drawing
segments. -/
theorem clone_drops_segments (g : Game) (artist : Uuid) (word : String)
    (drawing : Drawing) (gs : Games) (player_id : Uuid) :
    (g.stage = GameStage.playerDrawing artist word drawing →
      g.clone = { g with stage := (GameStage.playerDrawing artist word
        { canvas := drawing.canvas, segments := [] }) })
    ∧ ∀ m ∈ (gs.remove_player player_id).2, m.liveSegments = [] := by
  constructor
  · intro h
    simp [Game.clone, GameStage.clone, Drawing.clone, h]
  · intro m hm
    obtain ⟨g0, rfl⟩ := removeFromRooms_mods_are_clones player_id gs.rooms m hm
    exact clone_liveSegments g0

/-- C10 witness: a drawing game with a live segment clones to the same
game with the segment list emptied, and a concrete `remove_player` run
returns only segment-free snapshots. -/
theorem clone_drops_segments_witness :
    ({ id := "r"
       stage := (GameStage.playerDrawing 0 "Apple"
         { canvas := { width := 800, height := 600 }
           segments := [{ id := "s1", stroke := "red", line_width := 2, points := [] }] })
       players := [{ id := 0, nickname := "A" }, { id := 1, nickname := "B" }]
       history := [] : Game }).clone =
      { id := "r"
        stage := (GameStage.playerDrawing 0 "Apple"
          { canvas := { width := 800, height := 600 }, segments := [] })
        players := [{ id := 0, nickname := "A" }, { id := 1, nickname := "B" }]
        history := [] }
    ∧ ∀ m ∈ (({ pending_ids := []
                rooms := [("r",
                  { id := "r"
                    stage := (GameStage.playerDrawing 0 "Apple"
                      { canvas := { width := 800, height := 600 }
                        segments := [{ id := "s1", stroke := "red", line_width := 2, points := [] }] })
                    players := [{ id := 0, nickname := "A" }, { id := 1, nickname := "B" }]
                    history := [] })] : Games }).remove_player 1).2, m.liveSegments = [] := by
  have h := clone_drops_segments
    { id := "r"
      stage := (GameStage.playerDrawing 0 "Apple"
        { canvas := { width := 800, height := 600 }
          segments := [{ id := "s1", stroke := "red", line_width := 2, points := [] }] })
      players := [{ id := 0, nickname := "A" }, { id := 1, nickname := "B" }]
      history := [] }
    0 "Apple"
    { canvas := { width := 800, height := 600 }
      segments := [{ id := "s1", stroke := "red", line_width := 2, points := [] }] }
    { pending_ids := []
      rooms := [("r",
        { id := "r"
          stage := (GameStage.playerDrawing 0 "Apple"
            { canvas := { width := 800, height := 600 }
              segments := [{ id := "s1", stroke := "red", line_width := 2, points := [] }] })
          players := [{ id := 0, nickname := "A" }, { id := 1, nickname := "B" }]
          history := [] })] }
    1
  exact ⟨h.1 rfl, h.2⟩

/-!
C3: the stage always references a roster member — helper lemmas.
-/

theorem mem_eraseP_of_pred_false {α : Type} {p : α → Bool} {a : α} :
    ∀ {l : List α}, a ∈ l → p a = false → a ∈ l.eraseP p := by
  intro l
  induction l with
  | nil => intro h _; cases h
  | cons b tl ih =>
    intro hmem hpa
    rw [List.eraseP_cons]
    cases hpb : p b with
    | true =>
      simp only [cond_true]
      rcases List.mem_cons.mp hmem with rfl | h2
      · rw [hpa] at hpb; cases hpb
      · exact h2
    | false =>
      simp only [cond_false]
      rcases List.mem_cons.mp hmem with rfl | h2
      · exact List.mem_cons_self _ _
      · exact List.mem_cons_of_mem _ (ih h2 hpa)

/-- The roster after `remove_player` is the roster with the first entry
carrying the removed id deleted. -/
theorem remove_player_players (g : Game) (pid : Uuid) :
    (g.remove_player pid).1.players = g.players.eraseP (fun p => p.id == pid) := by
  simp only [Game.remove_player]
  split
  next heq => simp [heq]
  next first rest heq => simp [heq]

/-- The boolean returned by `remove_player` reports whether the id was in
the roster. -/
theorem remove_player_present (g : Game) (pid : Uuid) :
    (g.remove_player pid).2 = g.players.any (fun p => p.id == pid) := by
  simp only [Game.remove_player]
  split <;> rfl

/-- When the removed id was the stage's chooser/artist and the roster
stays non-empty, the stage resets to Choosing on the new head. -/
theorem remove_player_stage_hit {g : Game} {pid : Uuid} {first : Player} {rest : List Player}
    (heq : g.players.eraseP (fun p => p.id == pid) = first :: rest)
    (hs : g.stage.playerId = pid) :
    (g.remove_player pid).1.stage = GameStage.playerChoosing first.id := by
  simp only [Game.remove_player, heq]
  cases hstage : g.stage with
  | playerChoosing q =>
    rw [hstage] at hs
    simp only [GameStage.playerId] at hs
    simp [hs]
  | playerDrawing q w d =>
    rw [hstage] at hs
    simp only [GameStage.playerId] at hs
    simp [hs]

/-- When the removed id was not the stage's chooser/artist, the stage is
untouched. -/
theorem remove_player_stage_miss {g : Game} {pid : Uuid}
    (hs : g.stage.playerId ≠ pid) :
    (g.remove_player pid).1.stage = g.stage := by
  simp only [Game.remove_player]
  split
  next heq => rfl
  next first rest heq =>
    cases hstage : g.stage with
    | playerChoosing q =>
      rw [hstage] at hs
      simp only [GameStage.playerId] at hs
      simp [hs]
    | playerDrawing q w d =>
      rw [hstage] at hs
      simp only [GameStage.playerId] at hs
      simp [hs]

theorem stageOk_add_player {g : Game} {player : Player} (h : g.stageOk = true) :
    (g.add_player player).stageOk = true := by
  simp only [Game.add_player]
  split
  · exact h
  · simp only [Game.stageOk, List.any_append] at *
    simp [h]

theorem stageOk_new (id : String) (player : Player) : (Game.new id player).stageOk = true := by
  simp [Game.new, Game.stageOk, GameStage.playerId]

theorem stageOk_submit_word {g : Game} {pid : Uuid} {word : String} {canvas : CanvasSize}
    (h : g.stageOk = true) : ((g.submit_word pid word canvas).1).stageOk = true := by
  simp only [Game.submit_word]
  cases hstage : g.stage with
  | playerChoosing q =>
    by_cases hc : pid = q
    · simp only [if_pos hc, Game.stageOk, GameStage.playerId] at *
      rw [hstage] at h
      simpa [GameStage.playerId] using h
    · simpa [hc] using h
  | playerDrawing q w d => simpa using h

theorem stageOk_guess_word {g : Game} {pid : Uuid} {guess : String}
    (h : g.stageOk = true) (hmem : g.players.any (fun p => p.id == pid) = true) :
    ((g.guess_word pid guess).1).stageOk = true := by
  simp only [Game.guess_word]
  cases hstage : g.stage with
  | playerChoosing q => simpa using h
  | playerDrawing q w d =>
    by_cases hw : strToLower w = strToLower guess
    · simp only [if_pos hw, Game.stageOk, GameStage.playerId]
      exact hmem
    · simpa [hw] using h

theorem stageOk_add_segment {g : Game} {segment : DrawingSegment} (h : g.stageOk = true) :
    (g.add_segment segment).stageOk = true := by
  simp only [Game.add_segment]
  cases hstage : g.stage with
  | playerChoosing q => exact h
  | playerDrawing q w d =>
    simp only [Game.stageOk, GameStage.playerId] at *
    rw [hstage] at h
    simpa [GameStage.playerId] using h

theorem stageOk_remove_segment {g : Game} {segment_id : String} (h : g.stageOk = true) :
    (g.remove_segment segment_id).stageOk = true := by
  simp only [Game.remove_segment]
  cases hstage : g.stage with
  | playerChoosing q => exact h
  | playerDrawing q w d =>
    simp only [Game.stageOk, GameStage.playerId] at *
    rw [hstage] at h
    simpa [GameStage.playerId] using h

/-- A surviving roster keeps the stage reference valid through
`remove_player`. -/
theorem stageOk_remove_player {g : Game} {pid : Uuid} (hok : g.stageOk = true)
    (hne : (g.remove_player pid).1.players ≠ []) :
    ((g.remove_player pid).1).stageOk = true := by
  rw [remove_player_players] at hne
  cases heq : g.players.eraseP (fun p => p.id == pid) with
  | nil => exact absurd heq hne
  | cons first rest =>
    have hplayers : (g.remove_player pid).1.players = first :: rest := by
      rw [remove_player_players, heq]
    by_cases hs : g.stage.playerId = pid
    · rw [Game.stageOk, hplayers, remove_player_stage_hit heq hs]
      simp [GameStage.playerId]
    · rw [Game.stageOk, hplayers, remove_player_stage_miss hs]
      simp only [Game.stageOk, List.any_eq_true, beq_iff_eq] at hok
      obtain ⟨q, hq, hqid⟩ := hok
      have hqpred : (fun p => p.id == pid) q = false := by
        simp only [beq_eq_false_iff_ne, ne_eq]
        rw [hqid]
        exact hs
      have : q ∈ first :: rest := heq ▸ mem_eraseP_of_pred_false hq hqpred
      simp only [List.any_eq_true, beq_iff_eq]
      exact ⟨q, this, hqid⟩

/-- `updateRoom` keeps every stage valid when the update function does. -/
theorem all_stageOk_updateRoom {rooms : List (String × Game)} {gid : String} {f : Game → Game}
    (hall : rooms.all (fun r => r.2.stageOk) = true)
    (hf : ∀ g, rooms.lookup gid = some g → g.stageOk = true → (f g).stageOk = true) :
    (updateRoom rooms gid f).all (fun r => r.2.stageOk) = true := by
  induction rooms with
  | nil => rfl
  | cons e tl ih =>
    obtain ⟨id, g⟩ := e
    simp only [List.all_cons, Bool.and_eq_true] at hall
    by_cases he : id = gid
    · rw [show updateRoom ((id, g) :: tl) gid f = (id, f g) :: tl from by
        simp [updateRoom, he]]
      simp only [List.all_cons, Bool.and_eq_true]
      refine ⟨hf g ?_ hall.1, hall.2⟩
      simp [List.lookup_cons, he]
    · rw [show updateRoom ((id, g) :: tl) gid f = (id, g) :: updateRoom tl gid f from by
        simp [updateRoom, he]]
      simp only [List.all_cons, Bool.and_eq_true]
      refine ⟨hall.1, ih hall.2 ?_⟩
      intro g2 hg2 hok2
      apply hf g2 ?_ hok2
      rw [List.lookup_cons, beq_false_of_ne (Ne.symm he)]
      exact hg2

/-- The rooms surviving `removeFromRooms` all keep a valid stage. -/
theorem all_stageOk_removeFromRooms {pid : Uuid} :
    ∀ {rooms : List (String × Game)}, rooms.all (fun r => r.2.stageOk) = true →
    (removeFromRooms pid rooms).1.all (fun r => r.2.stageOk) = true := by
  intro rooms
  induction rooms with
  | nil => intro _; rfl
  | cons e tl ih =>
    intro hall
    simp only [List.all_cons, Bool.and_eq_true] at hall
    simp only [removeFromRooms]
    split
    · exact ih hall.2
    next hne =>
      have hok : ((e.2.remove_player pid).1).stageOk = true := by
        apply stageOk_remove_player hall.1
        intro hnil
        rw [hnil] at hne
        simp at hne
      split <;> simp only [List.all_cons, Bool.and_eq_true] <;> exact ⟨hok, ih hall.2⟩

/-- One legal operation preserves the roster-membership of every stage. -/
theorem stagesOk_applyOp {gs : Games} {op : Op} (hok : gs.stagesOk = true)
    (hleg : gs.legalOp op = true) : (gs.applyOp op).stagesOk = true := by
  cases op with
  | addPlayer gid pid nick =>
    simp only [Games.applyOp, Games.add_player]
    cases hl : gs.rooms.lookup gid with
    | some g =>
      simp only [Games.stagesOk]
      exact all_stageOk_updateRoom hok (fun g2 _ h2 => stageOk_add_player h2)
    | none =>
      simp only [Games.stagesOk, List.all_append, Bool.and_eq_true]
      exact ⟨hok, by simp [stageOk_new]⟩
  | removePlayer pid =>
    simp only [Games.applyOp, Games.remove_player, Games.stagesOk]
    exact all_stageOk_removeFromRooms hok
  | submitWord gid pid word canvas =>
    simp only [Games.applyOp, Games.stagesOk]
    exact all_stageOk_updateRoom hok (fun g2 _ h2 => stageOk_submit_word h2)
  | guessWord gid pid guess =>
    simp only [Games.applyOp, Games.stagesOk]
    apply all_stageOk_updateRoom hok
    intro g2 hg2 h2
    apply stageOk_guess_word h2
    simp only [Games.legalOp, hg2] at hleg
    exact hleg
  | addSegment gid segment =>
    simp only [Games.applyOp, Games.stagesOk]
    exact all_stageOk_updateRoom hok (fun g2 _ h2 => stageOk_add_segment h2)
  | removeSegment gid segment_id =>
    simp only [Games.applyOp, Games.stagesOk]
    exact all_stageOk_updateRoom hok (fun g2 _ h2 => stageOk_remove_segment h2)

/-- A legal trace preserves the invariant from any state satisfying it. -/
theorem stagesOk_applyOps :
    ∀ (ops : List Op) (gs : Games), gs.stagesOk = true → gs.legalOps ops = true →
    (gs.applyOps ops).stagesOk = true := by
  intro ops
  induction ops with
  | nil => intro gs h _; exact h
  | cons op rest ih =>
    intro gs h hleg
    simp only [Games.legalOps, Bool.and_eq_true] at hleg
    simp only [Games.applyOps, List.foldl_cons]
    exact ih _ (stagesOk_applyOp h hleg.1) hleg.2

/-- C3 counterexample: from a fresh one-player game `[0]`, the trace
submit(0, "w") then guess(1, "w") — a correct guess by an id that is not
in the roster — leaves the stage anchored on player 1 while the roster is
still `[0]`: the claimed invariant fails for unrestricted operation
sequences. -/
theorem stage_member_invariant_cex :
    (Games.applyOps (freshGames "g" 0 "n")
      [Op.submitWord "g" 0 "w" { width := 1, height := 1 },
       Op.guessWord "g" 1 "w"]).stagesOk = false
    ∧ ((Games.applyOps (freshGames "g" 0 "n")
      [Op.submitWord "g" 0 "w" { width := 1, height := 1 },
       Op.guessWord "g" 1 "w"]).rooms.map
        (fun r => (r.2.stage.playerId, r.2.players.map Player.id))) = [(1, [0])] := by
  constructor
  · decide
  · decide

/-- C3 amended: the invariant holds for every operation sequence in which
each `guess_word` is issued by a player currently in the targeted room's
roster (the code never checks this; the counterexample shows an outsider
guess breaks it).  All other operations may be arbitrary. -/
theorem stage_member_invariant (game_id : String) (player_id : Uuid) (nick : String)
    (ops : List Op)
    (hleg : (freshGames game_id player_id nick).legalOps ops = true) :
    ((freshGames game_id player_id nick).applyOps ops).stagesOk = true := by
  apply stagesOk_applyOps ops _ ?_ hleg
  simp [freshGames, Games.stagesOk, Game.new, Game.stageOk, GameStage.playerId]

/-- C3 witness: a legal trace — second player joins, chooser submits,
the roster member 1 guesses correctly — keeps the stage reference in the
roster. -/
theorem stage_member_invariant_witness :
    (freshGames "g" 0 "n").legalOps
      [Op.addPlayer "g" 1 "m", Op.submitWord "g" 0 "w" { width := 1, height := 1 },
       Op.guessWord "g" 1 "w"] = true
    ∧ ((freshGames "g" 0 "n").applyOps
      [Op.addPlayer "g" 1 "m", Op.submitWord "g" 0 "w" { width := 1, height := 1 },
       Op.guessWord "g" 1 "w"]).stagesOk = true :=
  ⟨by decide,
   stage_member_invariant "g" 0 "n"
     [Op.addPlayer "g" 1 "m", Op.submitWord "g" 0 "w" { width := 1, height := 1 },
      Op.guessWord "g" 1 "w"] (by decide)⟩

/-!
C6: registry-level `remove_player` — helper lemmas.
-/

/-- With duplicate-free roster ids, no entry with the removed id survives
the erase. -/
theorem eraseP_id_not_mem {pid : Uuid} :
    ∀ {l : List Player}, (l.map Player.id).Nodup →
      ∀ q ∈ l.eraseP (fun p => p.id == pid), q.id ≠ pid := by
  intro l
  induction l with
  | nil => intro _ q hq; cases hq
  | cons a tl ih =>
    intro hnodup q hq
    simp only [List.map_cons, List.nodup_cons] at hnodup
    rw [List.eraseP_cons] at hq
    cases hpa : (a.id == pid) with
    | true =>
      rw [hpa] at hq
      simp only [cond_true] at hq
      intro hqid
      have ha : a.id = pid := by simpa using hpa
      have hmem : q.id ∈ tl.map Player.id := List.mem_map_of_mem Player.id hq
      rw [hqid, ← ha] at hmem
      exact hnodup.1 hmem
    | false =>
      rw [hpa] at hq
      simp only [cond_false] at hq
      rcases List.mem_cons.mp hq with rfl | h2
      · simpa using hpa
      · exact ih hnodup.2 q h2

/-- Every surviving entry of `removeFromRooms` is an original entry with
the player removed and a non-empty roster. -/
theorem removeFromRooms_mem (pid : Uuid) :
    ∀ rooms : List (String × Game), ∀ e2 ∈ (removeFromRooms pid rooms).1,
      ∃ e ∈ rooms, e2 = (e.1, (e.2.remove_player pid).1)
        ∧ (e.2.remove_player pid).1.players ≠ [] := by
  intro rooms
  induction rooms with
  | nil => intro e2 h; cases h
  | cons e tl ih =>
    intro e2 h2
    simp only [removeFromRooms] at h2
    split at h2
    next hemp =>
      obtain ⟨e0, he0, hrest⟩ := ih e2 h2
      exact ⟨e0, List.mem_cons_of_mem _ he0, hrest⟩
    next hemp =>
      have hne : (e.2.remove_player pid).1.players ≠ [] := by
        intro hnil
        rw [hnil] at hemp
        simp at hemp
      split at h2 <;>
      · rcases List.mem_cons.mp h2 with rfl | h3
        · exact ⟨e, List.mem_cons_self _ _, rfl, hne⟩
        · obtain ⟨e0, he0, hrest⟩ := ih e2 h3
          exact ⟨e0, List.mem_cons_of_mem _ he0, hrest⟩

/-- The surviving entries use keys of the original map. -/
theorem removeFromRooms_keys_subset (pid : Uuid) :
    ∀ rooms : List (String × Game), ∀ k ∈ (removeFromRooms pid rooms).1.map Prod.fst,
      k ∈ rooms.map Prod.fst := by
  intro rooms k hk
  simp only [List.mem_map] at hk
  obtain ⟨e2, he2, rfl⟩ := hk
  obtain ⟨e, he, heq, _⟩ := removeFromRooms_mem pid rooms e2 he2
  rw [heq]
  exact List.mem_map.mpr ⟨e, he, rfl⟩

/-- A room emptied by the removal is gone from the surviving map. -/
theorem removeFromRooms_lookup_dropped {pid : Uuid} :
    ∀ {rooms : List (String × Game)}, (rooms.map Prod.fst).Nodup →
      ∀ e ∈ rooms, (e.2.remove_player pid).1.players = [] →
        (removeFromRooms pid rooms).1.lookup e.1 = none := by
  intro rooms
  induction rooms with
  | nil => intro _ e h; cases h
  | cons hd tl ih =>
    intro hnodup e he hemp
    simp only [List.map_cons, List.nodup_cons] at hnodup
    rcases List.mem_cons.mp he with rfl | he2
    · simp only [removeFromRooms]
      rw [if_pos (by simp [hemp])]
      apply lookup_eq_none_of_not_mem
      intro hk
      exact hnodup.1 (removeFromRooms_keys_subset pid tl e.1 hk)
    · have hne : e.1 ≠ hd.1 := by
        intro hcontra
        exact hnodup.1 (hcontra ▸ List.mem_map_of_mem Prod.fst he2)
      simp only [removeFromRooms]
      split
      · exact ih hnodup.2 e he2 hemp
      · split <;>
        · rw [List.lookup_cons, beq_false_of_ne hne]
          exact ih hnodup.2 e he2 hemp

/-- A room surviving the removal is found in the surviving map with the
player removed. -/
theorem removeFromRooms_lookup_kept {pid : Uuid} :
    ∀ {rooms : List (String × Game)}, (rooms.map Prod.fst).Nodup →
      ∀ e ∈ rooms, (e.2.remove_player pid).1.players ≠ [] →
        (removeFromRooms pid rooms).1.lookup e.1 = some (e.2.remove_player pid).1 := by
  intro rooms
  induction rooms with
  | nil => intro _ e h; cases h
  | cons hd tl ih =>
    intro hnodup e he hne
    simp only [List.map_cons, List.nodup_cons] at hnodup
    rcases List.mem_cons.mp he with rfl | he2
    · simp only [removeFromRooms]
      rw [if_neg (by simpa using hne)]
      split <;> simp [List.lookup_cons]
    · have hnehd : e.1 ≠ hd.1 := by
        intro hcontra
        exact hnodup.1 (hcontra ▸ List.mem_map_of_mem Prod.fst he2)
      simp only [removeFromRooms]
      split
      · exact ih hnodup.2 e he2 hne
      · split <;>
        · rw [List.lookup_cons, beq_false_of_ne hnehd]
          exact ih hnodup.2 e he2 hne

/-- The modified list is exactly the clones of the rooms that contained the
player and survived. -/
theorem removeFromRooms_mods_iff (pid : Uuid) :
    ∀ (rooms : List (String × Game)) (m : Game),
      m ∈ (removeFromRooms pid rooms).2 ↔
        ∃ e ∈ rooms, (e.2.remove_player pid).2 = true
          ∧ (e.2.remove_player pid).1.players ≠ []
          ∧ m = (e.2.remove_player pid).1.clone := by
  intro rooms m
  induction rooms with
  | nil => simp [removeFromRooms]
  | cons hd tl ih =>
    simp only [removeFromRooms]
    split
    next hemp =>
      rw [ih]
      constructor
      · rintro ⟨e, he, hrest⟩
        exact ⟨e, List.mem_cons_of_mem _ he, hrest⟩
      · rintro ⟨e, he, hmod, hne, hm⟩
        rcases List.mem_cons.mp he with rfl | he2
        · exact absurd (by simpa using hemp) hne
        · exact ⟨e, he2, hmod, hne, hm⟩
    next hemp =>
      have hne : (hd.2.remove_player pid).1.players ≠ [] := by
        intro hnil
        rw [hnil] at hemp
        simp at hemp
      split
      next hmod =>
        simp only [List.mem_cons]
        rw [ih]
        constructor
        · rintro (rfl | ⟨e, he, hrest⟩)
          · exact ⟨hd, Or.inl rfl, hmod, hne, rfl⟩
          · exact ⟨e, Or.inr he, hrest⟩
        · rintro ⟨e, he, hmod2, hne2, hm⟩
          rcases he with rfl | he2
          · exact Or.inl hm
          · exact Or.inr ⟨e, he2, hmod2, hne2, hm⟩
      next hmod =>
        rw [ih]
        constructor
        · rintro ⟨e, he, hrest⟩
          exact ⟨e, List.mem_cons_of_mem _ he, hrest⟩
        · rintro ⟨e, he, hmod2, hne2, hm⟩
          rcases List.mem_cons.mp he with rfl | he2
          · rw [hmod2] at hmod
            exact absurd rfl hmod
          · exact ⟨e, he2, hmod2, hne2, hm⟩

/-- C6: `Games::remove_player(p)` (on a well-formed registry: unique room
ids, duplicate-free rosters) removes `p` from every surviving roster;
destroys exactly the rooms whose roster became empty; resets a surviving
room's stage to Choosing on its first remaining member whenever `p` was
the chooser/artist; and returns precisely the clones of the rooms that
contained `p` and still have members. -/
theorem remove_player_registry_spec (gs : Games) (player_id : Uuid)
    (hkeys : (gs.rooms.map Prod.fst).Nodup)
    (hrosters : ∀ e ∈ gs.rooms, (e.2.players.map Player.id).Nodup) :
    (∀ e2 ∈ (gs.remove_player player_id).1.rooms, ∀ q ∈ e2.2.players, q.id ≠ player_id)
    ∧ (∀ e ∈ gs.rooms, (e.2.remove_player player_id).1.players = [] →
        (gs.remove_player player_id).1.rooms.lookup e.1 = none)
    ∧ (∀ e ∈ gs.rooms, ∀ first rest,
        (e.2.remove_player player_id).1.players = first :: rest →
        (gs.remove_player player_id).1.rooms.lookup e.1 = some (e.2.remove_player player_id).1
        ∧ (e.2.stage.playerId = player_id →
            (e.2.remove_player player_id).1.stage = GameStage.playerChoosing first.id))
    ∧ (∀ m, m ∈ (gs.remove_player player_id).2 ↔
        ∃ e ∈ gs.rooms, (∃ q ∈ e.2.players, q.id = player_id)
          ∧ (e.2.remove_player player_id).1.players ≠ []
          ∧ m = (e.2.remove_player player_id).1.clone) := by
  refine ⟨?_, ?_, ?_, ?_⟩
  · intro e2 he2 q hq
    obtain ⟨e, he, heq, _⟩ := removeFromRooms_mem player_id gs.rooms e2 he2
    have hq2 : q ∈ (e.2.remove_player player_id).1.players := by
      rw [heq] at hq
      exact hq
    rw [remove_player_players] at hq2
    exact eraseP_id_not_mem (hrosters e he) q hq2
  · intro e he hemp
    exact removeFromRooms_lookup_dropped hkeys e he hemp
  · intro e he first rest hp
    refine ⟨removeFromRooms_lookup_kept hkeys e he (by rw [hp]; exact List.cons_ne_nil _ _), ?_⟩
    intro hs
    have heq : e.2.players.eraseP (fun p => p.id == player_id) = first :: rest := by
      rw [← remove_player_players, hp]
    exact remove_player_stage_hit heq hs
  · intro m
    rw [show (gs.remove_player player_id).2 = (removeFromRooms player_id gs.rooms).2 from rfl]
    rw [removeFromRooms_mods_iff]
    constructor
    · rintro ⟨e, he, hmod, hne, hm⟩
      rw [remove_player_present] at hmod
      simp only [List.any_eq_true, beq_iff_eq] at hmod
      exact ⟨e, he, hmod, hne, hm⟩
    · rintro ⟨e, he, hmem, hne, hm⟩
      refine ⟨e, he, ?_, hne, hm⟩
      rw [remove_player_present]
      simp only [List.any_eq_true, beq_iff_eq]
      exact hmem

/-- C6 witness: removing player 7 from `gsThree` — room "a" (only 7) is
destroyed, room "b" (7 is the artist, 8 remains) survives with its stage
reset and contributes the one snapshot, room "c" (no 7) is untouched and
contributes none. -/
theorem remove_player_registry_spec_witness :
    (∀ e2 ∈ (gsThree.remove_player 7).1.rooms, ∀ q ∈ e2.2.players, q.id ≠ 7)
    ∧ (∀ m, m ∈ (gsThree.remove_player 7).2 ↔
        ∃ e ∈ gsThree.rooms, (∃ q ∈ e.2.players, q.id = 7)
          ∧ (e.2.remove_player 7).1.players ≠ []
          ∧ m = (e.2.remove_player 7).1.clone) := by
  have h := remove_player_registry_spec gsThree 7 (by decide) (by decide)
  exact ⟨h.1, h.2.2.2⟩

/-!
Well-formedness: the duplicate-free-roster hypothesis of the C6 theorem is
an invariant of every reachable registry (so it holds in "every registry
state" the program can be in; likewise unique room keys, which the Rust
`HashMap` guarantees by construction).
-/

theorem submit_word_players (g : Game) (pid : Uuid) (word : String) (canvas : CanvasSize) :
    (g.submit_word pid word canvas).1.players = g.players := by
  simp only [Game.submit_word]
  split
  · split <;> rfl
  · rfl

theorem guess_word_players (g : Game) (pid : Uuid) (guess : String) :
    (g.guess_word pid guess).1.players = g.players := by
  simp only [Game.guess_word]
  split
  · split <;> rfl
  · rfl

theorem add_segment_players (g : Game) (segment : DrawingSegment) :
    (g.add_segment segment).players = g.players := by
  simp only [Game.add_segment]
  split <;> rfl

theorem remove_segment_players (g : Game) (segment_id : String) :
    (g.remove_segment segment_id).players = g.players := by
  simp only [Game.remove_segment]
  split <;> rfl

theorem nodup_add_player {g : Game} {player : Player}
    (h : (g.players.map Player.id).Nodup) :
    ((g.add_player player).players.map Player.id).Nodup := by
  simp only [Game.add_player]
  cases hany : g.players.any (fun p => p.id == player.id) with
  | true => simpa using h
  | false =>
    simp only [Bool.false_eq_true, if_false, List.map_append, List.map_cons, List.map_nil]
    rw [List.nodup_append]
    refine ⟨h, List.nodup_singleton _, ?_⟩
    intro x hx hx2
    simp only [List.mem_singleton] at hx2
    subst hx2
    simp only [List.any_eq_false] at hany
    obtain ⟨p, hp, hpe⟩ := List.mem_map.mp hx
    exact hany p hp (by simp [hpe])

theorem nodup_remove_player {g : Game} {pid : Uuid}
    (h : (g.players.map Player.id).Nodup) :
    (((g.remove_player pid).1.players).map Player.id).Nodup := by
  rw [remove_player_players]
  exact ((List.eraseP_sublist _).map Player.id).nodup h

/-- Entries of `updateRoom` are original entries, possibly updated. -/
theorem mem_updateRoom {rooms : List (String × Game)} {gid : String} {f : Game → Game} :
    ∀ e2 ∈ updateRoom rooms gid f, ∃ e ∈ rooms, e2 = e ∨ e2 = (e.1, f e.2) := by
  induction rooms with
  | nil => intro e2 h; cases h
  | cons hd tl ih =>
    obtain ⟨id, g⟩ := hd
    intro e2 h2
    by_cases he : id = gid
    · rw [show updateRoom ((id, g) :: tl) gid f = (id, f g) :: tl from by
        simp [updateRoom, he]] at h2
      rcases List.mem_cons.mp h2 with h3 | h3
      · exact ⟨(id, g), List.mem_cons_self _ _, Or.inr h3⟩
      · exact ⟨e2, List.mem_cons_of_mem _ h3, Or.inl rfl⟩
    · rw [show updateRoom ((id, g) :: tl) gid f = (id, g) :: updateRoom tl gid f from by
        simp [updateRoom, he]] at h2
      rcases List.mem_cons.mp h2 with h3 | h3
      · exact ⟨(id, g), List.mem_cons_self _ _, Or.inl h3⟩
      · obtain ⟨e, he2, hor⟩ := ih e2 h3
        exact ⟨e, List.mem_cons_of_mem _ he2, hor⟩

/-- Every operation keeps every room's roster duplicate-free. -/
theorem rostersNodup_applyOp {gs : Games} {op : Op}
    (h : ∀ e ∈ gs.rooms, (e.2.players.map Player.id).Nodup) :
    ∀ e ∈ (gs.applyOp op).rooms, (e.2.players.map Player.id).Nodup := by
  have hupd : ∀ (gid : String) (f : Game → Game),
      (∀ g : Game, (g.players.map Player.id).Nodup → ((f g).players.map Player.id).Nodup) →
      ∀ e ∈ updateRoom gs.rooms gid f, (e.2.players.map Player.id).Nodup := by
    intro gid f hf e2 he2
    obtain ⟨e, he, hor⟩ := mem_updateRoom e2 he2
    rcases hor with h3 | h3
    · rw [h3]; exact h e he
    · rw [h3]; exact hf e.2 (h e he)
  cases op with
  | addPlayer gid pid nick =>
    simp only [Games.applyOp, Games.add_player]
    cases hl : gs.rooms.lookup gid with
    | some g =>
      exact hupd gid _ (fun g2 h2 => nodup_add_player h2)
    | none =>
      intro e2 he2
      rcases List.mem_append.mp he2 with h3 | h3
      · exact h e2 h3
      · simp only [List.mem_singleton] at h3
        subst h3
        simp [Game.new]
  | removePlayer pid =>
    intro e2 he2
    simp only [Games.applyOp, Games.remove_player] at he2
    obtain ⟨e, he, heq, _⟩ := removeFromRooms_mem pid gs.rooms e2 he2
    rw [heq]
    exact nodup_remove_player (h e he)
  | submitWord gid pid word canvas =>
    exact hupd gid _ (fun g2 h2 => by rw [submit_word_players]; exact h2)
  | guessWord gid pid guess =>
    exact hupd gid _ (fun g2 h2 => by rw [guess_word_players]; exact h2)
  | addSegment gid segment =>
    exact hupd gid _ (fun g2 h2 => by rw [add_segment_players]; exact h2)
  | removeSegment gid segment_id =>
    exact hupd gid _ (fun g2 h2 => by rw [remove_segment_players]; exact h2)

/-- From a fresh one-player game, every reachable registry has
duplicate-free rosters: the hypothesis of the C6 theorem holds in every
reachable state. -/
theorem rostersNodup_applyOps (game_id : String) (player_id : Uuid) (nick : String) :
    ∀ (ops : List Op), ∀ e ∈ ((freshGames game_id player_id nick).applyOps ops).rooms,
      (e.2.players.map Player.id).Nodup := by
  have base : ∀ e ∈ (freshGames game_id player_id nick).rooms,
      (e.2.players.map Player.id).Nodup := by
    intro e he
    simp only [freshGames, List.mem_singleton] at he
    subst he
    simp [Game.new]
  have step : ∀ (ops : List Op) (gs : Games),
      (∀ e ∈ gs.rooms, (e.2.players.map Player.id).Nodup) →
      ∀ e ∈ (gs.applyOps ops).rooms, (e.2.players.map Player.id).Nodup := by
    intro ops
    induction ops with
    | nil => intro gs h; exact h
    | cons op rest ih =>
      intro gs h
      simp only [Games.applyOps, List.foldl_cons]
      exact ih _ (rostersNodup_applyOp h)
  intro ops
  exact step ops _ base

end Krokodil
